import Mathlib

/-!
Verification of the data-structures library (singly linked list / stack,
priority queue, circular-buffer FIFO queue) against its specification.

The Lean definitions below are a shallow embedding of the Rust sources:
`src/linkedlist.rs` (LinkedList, Stack) and `src/queues.rs`
(PriorityQueue, Queue).  Rust `usize` indices are modelled as `Nat` with
the explicit `% capacity` arithmetic of the source; `Vec<T>` is modelled
as a `List T` (the initialised prefix, whose length is `Vec::len`)
together with an explicit `cap` field modelling `Vec::capacity`; fallible
reads return `Option`.  Mutating Rust methods become state-passing
functions.
-/

namespace DS

/-- `LinkedList<T>(Option<(T, Box<LinkedList<T>>)>)` from src/linkedlist.rs:
`nil` is `Self(None)`, `cons data child` is `Self(Some((data, child)))`. -/
inductive LinkedList (T : Type) where
  | nil : LinkedList T
  | cons : T → LinkedList T → LinkedList T
deriving Repr, DecidableEq

/-- `LinkedList::new` — the empty list. -/
def LinkedList.new (T : Type) : LinkedList T := .nil

/-- `LinkedList::append`: recursive descent to the last node, inserting a
new terminal node holding `data`. -/
def LinkedList.append {T : Type} : LinkedList T → T → LinkedList T
  | .nil, data => .cons data .nil
  | .cons x ll, data => .cons x (ll.append data)

/-- `LinkedList::push`: wraps the existing chain as the tail of a fresh
head node. -/
def LinkedList.push {T : Type} (l : LinkedList T) (data : T) : LinkedList T :=
  .cons data l

/-- `LinkedList::pop`: on `None` returns `None` (list unchanged); otherwise
copies the head value and swaps the child chain into the list's place. -/
def LinkedList.pop {T : Type} : LinkedList T → Option T × LinkedList T
  | .nil => (none, .nil)
  | .cons data child => (some data, child)

/-- `LinkedList::peek`: copy of the head value, without mutation. -/
def LinkedList.peek {T : Type} : LinkedList T → Option T
  | .nil => none
  | .cons data _ => some data

/-- `LinkedList::insert_here`: builds `new` holding only `data`, swaps it
with `self` and re-attaches the old chain as its child — the net effect is
a new head node `data` in front of the old chain. -/
def LinkedList.insert_here {T : Type} (l : LinkedList T) (data : T) : LinkedList T :=
  .cons data l

/-- `LinkedList::insert(data, n)`: descends `n` nodes (or to the end,
whichever comes first); on `None` it appends, at `n = 0` it splices via
`insert_here`. -/
def LinkedList.insert {T : Type} : LinkedList T → T → Nat → LinkedList T
  | .nil, data, _ => LinkedList.append .nil data
  | .cons x child, data, n =>
    if n > 0 then .cons x (child.insert data (n - 1))
    else LinkedList.insert_here (.cons x child) data

/-- `<LinkedList as Iterator>::next` from src/linkedlist.rs lines 146-153:
same body as `pop` (copy head value, swap child into place). -/
def LinkedList.next {T : Type} : LinkedList T → Option T × LinkedList T
  | .nil => (none, .nil)
  | .cons data child => (some data, child)

/-- `LinkedList::from_iter` (via `from_helper`): consumes the sequence in
order, appending each element. -/
def LinkedList.from_iter {T : Type} (l : List T) : LinkedList T :=
  l.foldl (fun ll x => ll.append x) .nil

/-- Abstraction function: the mathematical sequence held by the chain. -/
def LinkedList.toList {T : Type} : LinkedList T → List T
  | .nil => []
  | .cons x ll => x :: ll.toList

/-- Driver: `n` consecutive `pop` calls, collecting each returned Option. -/
def LinkedList.popN {T : Type} (l : LinkedList T) : Nat → List (Option T) × LinkedList T
  | 0 => ([], l)
  | n + 1 =>
    let p := l.pop
    let r := p.2.popN n
    (p.1 :: r.1, r.2)

/-- `insert_inorder` from src/queues.rs lines 65-76, with the Rust
`data >= it` comparison of the generic `T: PartialOrd` element type made
explicit as a boolean relation `ge`. -/
def insert_inorder {T : Type} (ge : T → T → Bool) : LinkedList T → T → LinkedList T
  | .nil, data => LinkedList.append .nil data
  | .cons it child, data =>
    if ge data it then .cons it (insert_inorder ge child data)
    else LinkedList.insert_here (.cons it child) data

/-- `PriorityQueue<T> { list: LinkedList<T> }` from src/queues.rs. -/
structure PriorityQueue (T : Type) where
  list : LinkedList T
deriving Repr, DecidableEq

/-- `PriorityQueue::new`. -/
def PriorityQueue.new (T : Type) : PriorityQueue T := ⟨.nil⟩

/-- `PriorityQueue::insert`: delegates to `insert_inorder`. -/
def PriorityQueue.insert {T : Type} (ge : T → T → Bool) (q : PriorityQueue T)
    (data : T) : PriorityQueue T :=
  ⟨insert_inorder ge q.list data⟩

/-- `PriorityQueue::pop`: delegates to the underlying list's `pop`. -/
def PriorityQueue.pop {T : Type} (q : PriorityQueue T) : Option T × PriorityQueue T :=
  ((q.list.pop).1, ⟨(q.list.pop).2⟩)

/-- `Queue<T> { list: Vec<T>, head: usize, tail: usize }` from
src/queues.rs.  `list` is the initialised contents of the `Vec` (its
`len()` is `list.length`); `cap` models `Vec::capacity()`, which the code
reads for all its modular arithmetic. -/
structure Queue (T : Type) where
  list : List T
  head : Nat
  tail : Nat
  cap : Nat
deriving Repr, DecidableEq

/-- `DEFAULT_INIT_QUEUE_CAPACITY` from src/queues.rs. -/
def DEFAULT_INIT_QUEUE_CAPACITY : Nat := 32

/-- `Queue::with_capacity(capacity)`: `Vec::with_capacity(capacity)` (an
empty vector with the requested capacity), `head = 0`, `tail = 0`.  The
source performs no validation of `capacity`. -/
def Queue.with_capacity (T : Type) (capacity : Nat) : Queue T :=
  ⟨[], 0, 0, capacity⟩

/-- `Queue::new`: `with_capacity(DEFAULT_INIT_QUEUE_CAPACITY)`. -/
def Queue.new (T : Type) : Queue T :=
  Queue.with_capacity T DEFAULT_INIT_QUEUE_CAPACITY

/-- `Queue::empty`: `head == tail`. -/
def Queue.empty {T : Type} (q : Queue T) : Bool := q.head == q.tail

/-- `Queue::len`: wrap-aware logical length. -/
def Queue.len {T : Type} (q : Queue T) : Nat :=
  if q.head > q.tail then q.cap - q.head + q.tail else q.tail - q.head

/-- `Queue::has_space`: `head != (tail + 1) % capacity`. -/
def Queue.has_space {T : Type} (q : Queue T) : Bool :=
  q.head != (q.tail + 1) % q.cap

/-- `Queue::incr_head`: `head = (head + 1) % capacity`. -/
def Queue.incr_head {T : Type} (q : Queue T) : Queue T :=
  { q with head := (q.head + 1) % q.cap }

/-- `Queue::incr_tail`: `tail = (tail + 1) % capacity`. -/
def Queue.incr_tail {T : Type} (q : Queue T) : Queue T :=
  { q with tail := (q.tail + 1) % q.cap }

/-- `Queue::resize` from src/queues.rs lines 241-260: a fresh vector with
double the capacity; in the non-wrapped case `drain(head..tail)` moves the
slice `[head, tail)`; in the wrapped case `drain(head..)` moves
`[head, len)` and then, on the shortened vector (whose remaining contents
are the old `[0, head)`), `drain(..tail)` moves its first `tail` items.
Then `head = 0`, `tail = new length`. -/
def Queue.resize {T : Type} (q : Queue T) : Queue T :=
  let new_list :=
    if q.head ≤ q.tail then (q.list.drop q.head).take (q.tail - q.head)
    else q.list.drop q.head ++ (q.list.take q.head).take q.tail
  ⟨new_list, 0, new_list.length, q.cap * 2⟩

/-- The slot-store step inside `Queue::enqueue` (lines 156-160): overwrite
slot `tail` if the vector already covers it, otherwise
`insert(list.len(), data)`, i.e. push at the end. -/
def Queue.store {T : Type} (q : Queue T) (data : T) : Queue T :=
  if q.list.length > q.tail then { q with list := q.list.set q.tail data }
  else { q with list := q.list ++ [data] }

/-- `Queue::enqueue`: grow via `resize` when `has_space()` is false, store
`data` at slot `tail`, advance `tail`. -/
def Queue.enqueue {T : Type} (q : Queue T) (data : T) : Queue T :=
  ((if q.has_space then q else q.resize).store data).incr_tail

/-- `Queue::dequeue`: `None` on an empty queue; otherwise swap the item at
slot `head` with a zeroed dummy (modelled by `default`), advance `head`,
return the item.  The source's `get_unchecked_mut(head)` read is modelled
by `getD head default` (under the reachable-state invariant `head` is in
bounds whenever the queue is non-empty). -/
def Queue.dequeue {T : Type} [Inhabited T] (q : Queue T) : Option T × Queue T :=
  if q.empty then (none, q)
  else (some (q.list.getD q.head default),
        ({ q with list := q.list.set q.head default }).incr_head)

/-- A client-visible queue operation. -/
inductive Op (T : Type) where
  | enq : T → Op T
  | deq : Op T
deriving Repr, DecidableEq

/-- Driver: run a sequence of operations, collecting (in order) the values
returned by successful dequeues. -/
def Queue.run {T : Type} [Inhabited T] : Queue T → List (Op T) → Queue T × List T
  | q, [] => (q, [])
  | q, Op.enq x :: ops => (q.enqueue x).run ops
  | q, Op.deq :: ops =>
    match q.dequeue with
    | (none, q1) => q1.run ops
    | (some v, q1) =>
      let r := q1.run ops
      (r.1, v :: r.2)

/-- The values enqueued by a sequence of operations, in order. -/
def enqueued {T : Type} : List (Op T) → List T
  | [] => []
  | Op.enq x :: ops => x :: enqueued ops
  | Op.deq :: ops => enqueued ops

/-- Driver: `n` consecutive `dequeue` calls, collecting each Option. -/
def Queue.dequeueN {T : Type} [Inhabited T] (q : Queue T) : Nat → List (Option T) × Queue T
  | 0 => ([], q)
  | n + 1 =>
    let p := q.dequeue
    let r := p.2.dequeueN n
    (p.1 :: r.1, r.2)

/-- Abstraction function: the logical FIFO contents of the ring buffer,
oldest first. -/
def Queue.absQ {T : Type} (q : Queue T) : List T :=
  if q.head ≤ q.tail then (q.list.drop q.head).take (q.tail - q.head)
  else q.list.drop q.head ++ q.list.take q.tail

/-- Reachable-state invariant of the circular queue: sane capacity, both
indices strictly below the capacity, the vector's initialised length
covers `tail` and never exceeds the capacity, and in the wrapped state the
vector is fully initialised. -/
def Queue.Inv {T : Type} (q : Queue T) : Prop :=
  2 ≤ q.cap ∧ q.head < q.cap ∧ q.tail < q.cap ∧ q.tail ≤ q.list.length ∧
    q.list.length ≤ q.cap ∧ (q.tail < q.head → q.list.length = q.cap)

instance {T : Type} (q : Queue T) : Decidable q.Inv := by
  unfold Queue.Inv; infer_instance

end DS

namespace DS

/-- C9: `Iterator::next` and `pop` on `LinkedList` are extensionally equal:
on every list state they return the same Option and the same resulting
state, so draining by iteration is exactly repeated popping. -/
theorem c9_next_eq_pop : ∀ (T : Type) (l : LinkedList T), l.next = l.pop := by
  intro T l
  cases l <;> rfl

/-- Insertion at index `n` splices the value after the first `n` elements,
clamping to the end when the list is shorter than `n`. -/
theorem toList_insert {T : Type} (l : LinkedList T) (d : T) (n : Nat) :
    (l.insert d n).toList = l.toList.take n ++ d :: l.toList.drop n := by
  induction l generalizing n with
  | nil =>
    simp [LinkedList.insert, LinkedList.append, LinkedList.toList]
  | cons x c ih =>
    cases n with
    | zero =>
      simp [LinkedList.insert, LinkedList.insert_here, LinkedList.toList]
    | succ m =>
      simp [LinkedList.insert, LinkedList.toList, ih]

/-- C7: `insert(data, n)` makes `data` the `n`-th element when `n` is at
most the length, appends at the end when `n` exceeds the length (position
`min n length` in either case), and always grows the length by one. -/
theorem c7_insert_clamps_to_end : ∀ (T : Type) (l : LinkedList T) (d : T) (n : Nat),
    (l.insert d n).toList = l.toList.take n ++ d :: l.toList.drop n ∧
    (l.insert d n).toList.length = l.toList.length + 1 ∧
    ((l.insert d n).toList)[min n l.toList.length]? = some d := by
  intro T l d n
  refine ⟨toList_insert l d n, ?_, ?_⟩
  · rw [toList_insert l d n]
    simp
    omega
  · rw [toList_insert l d n]
    have hlen : (l.toList.take n).length = min n l.toList.length := by simp
    rw [← hlen, List.getElem?_append_right (Nat.le_refl _)]
    simp

end DS

namespace DS

@[simp] theorem Queue.store_head {T : Type} (q : Queue T) (x : T) :
    (q.store x).head = q.head := by
  unfold Queue.store; split <;> rfl

@[simp] theorem Queue.store_tail {T : Type} (q : Queue T) (x : T) :
    (q.store x).tail = q.tail := by
  unfold Queue.store; split <;> rfl

@[simp] theorem Queue.store_cap {T : Type} (q : Queue T) (x : T) :
    (q.store x).cap = q.cap := by
  unfold Queue.store; split <;> rfl

@[simp] theorem Queue.incr_tail_head {T : Type} (q : Queue T) :
    q.incr_tail.head = q.head := rfl

@[simp] theorem Queue.incr_tail_cap {T : Type} (q : Queue T) :
    q.incr_tail.cap = q.cap := rfl

@[simp] theorem Queue.incr_tail_list {T : Type} (q : Queue T) :
    q.incr_tail.list = q.list := rfl

@[simp] theorem Queue.incr_tail_tail {T : Type} (q : Queue T) :
    q.incr_tail.tail = (q.tail + 1) % q.cap := rfl

@[simp] theorem Queue.incr_head_head {T : Type} (q : Queue T) :
    q.incr_head.head = (q.head + 1) % q.cap := rfl

@[simp] theorem Queue.incr_head_tail {T : Type} (q : Queue T) :
    q.incr_head.tail = q.tail := rfl

@[simp] theorem Queue.incr_head_cap {T : Type} (q : Queue T) :
    q.incr_head.cap = q.cap := rfl

@[simp] theorem Queue.incr_head_list {T : Type} (q : Queue T) :
    q.incr_head.list = q.list := rfl

@[simp] theorem Queue.resize_head {T : Type} (q : Queue T) :
    q.resize.head = 0 := rfl

@[simp] theorem Queue.resize_cap {T : Type} (q : Queue T) :
    q.resize.cap = q.cap * 2 := rfl

/-- C5: the claim says `with_capacity(c)` rejects every `c <= 1` at
construction; the source performs no validation at all, so construction
succeeds and produces a queue (the capacity-0 failure only surfaces later,
as `(tail + 1) % 0` inside the first enqueue's `has_space`). -/
theorem c5_with_capacity_accepts_small :
    Queue.with_capacity Int 0 = ⟨[], 0, 0, 0⟩ ∧
    Queue.with_capacity Int 1 = ⟨[], 0, 0, 1⟩ ∧
    (Queue.with_capacity Int 0).cap = 0 ∧ (Queue.with_capacity Int 1).cap = 1 :=
  ⟨rfl, rfl, rfl, rfl⟩

/-- C6: `pop`/`peek`/`dequeue` on an empty structure return `None`,
leave the structure unchanged, and keep doing so over any number of
consecutive calls. -/
theorem c6_empty_absence {T : Type} [Inhabited T] :
    (LinkedList.nil : LinkedList T).pop = (none, LinkedList.nil) ∧
    (LinkedList.nil : LinkedList T).peek = none ∧
    (PriorityQueue.new T).pop = (none, PriorityQueue.new T) ∧
    (∀ q : Queue T, q.empty = true → q.dequeue = (none, q)) ∧
    (∀ (q : Queue T) (n : Nat), q.empty = true →
      q.dequeueN n = (List.replicate n none, q)) ∧
    (∀ n : Nat, (LinkedList.nil : LinkedList T).popN n
      = (List.replicate n none, LinkedList.nil)) := by
  have hdq : ∀ q : Queue T, q.empty = true → q.dequeue = (none, q) := by
    intro q h
    simp [Queue.dequeue, h]
  refine ⟨rfl, rfl, rfl, hdq, ?_, ?_⟩
  · intro q n h
    induction n with
    | zero => rfl
    | succ m ih =>
      simp only [Queue.dequeueN, hdq q h, ih, List.replicate_succ]
  · intro n
    induction n with
    | zero => rfl
    | succ m ih =>
      simp only [LinkedList.popN, LinkedList.pop, ih, List.replicate_succ]

theorem c6_empty_absence_witness :
    (Queue.with_capacity Int 2).empty = true ∧
    (Queue.with_capacity Int 2).dequeue = (none, Queue.with_capacity Int 2) ∧
    (Queue.with_capacity Int 2).dequeueN 3
      = (List.replicate 3 none, Queue.with_capacity Int 2) :=
  ⟨rfl, c6_empty_absence.2.2.2.1 _ rfl, c6_empty_absence.2.2.2.2.1 _ 3 rfl⟩

/-- C10: frame conditions — `enqueue` never touches `head` or the capacity
except through the growth path (where `resize` resets `head` to 0 and
doubles the capacity); a successful `dequeue` leaves `tail` and the
capacity alone and changes only `head` and the vacated slot; a failed
`dequeue` changes nothing. -/
theorem c10_frame_conditions {T : Type} [Inhabited T] (q : Queue T) (x : T) :
    (q.has_space = true → (q.enqueue x).head = q.head ∧ (q.enqueue x).cap = q.cap) ∧
    (q.has_space = false → (q.enqueue x).head = 0 ∧ (q.enqueue x).cap = q.cap * 2) ∧
    (q.empty = false →
      (q.dequeue).2.tail = q.tail ∧ (q.dequeue).2.cap = q.cap ∧
      (q.dequeue).2.head = (q.head + 1) % q.cap ∧
      (q.dequeue).2.list = q.list.set q.head default ∧
      (q.dequeue).1 = some (q.list.getD q.head default)) ∧
    (q.empty = true → q.dequeue = (none, q)) := by
  refine ⟨?_, ?_, ?_, ?_⟩
  · intro h
    simp [Queue.enqueue, h]
  · intro h
    simp [Queue.enqueue, h]
  · intro h
    simp [Queue.dequeue, h, Queue.incr_head]
  · intro h
    simp [Queue.dequeue, h]

theorem c10_frame_conditions_witness :
    ((⟨[10], 0, 1, 3⟩ : Queue Int).has_space = true ∧
      ((⟨[10], 0, 1, 3⟩ : Queue Int).enqueue 20).head = 0 ∧
      ((⟨[10], 0, 1, 3⟩ : Queue Int).enqueue 20).cap = 3) ∧
    ((⟨[10, 20], 0, 2, 3⟩ : Queue Int).has_space = false ∧
      ((⟨[10, 20], 0, 2, 3⟩ : Queue Int).enqueue 30).head = 0 ∧
      ((⟨[10, 20], 0, 2, 3⟩ : Queue Int).enqueue 30).cap = 6) ∧
    ((⟨[10], 0, 1, 3⟩ : Queue Int).empty = false ∧
      ((⟨[10], 0, 1, 3⟩ : Queue Int).dequeue).2.tail = 1 ∧
      ((⟨[10], 0, 1, 3⟩ : Queue Int).dequeue).2.cap = 3 ∧
      ((⟨[10], 0, 1, 3⟩ : Queue Int).dequeue).1 = some 10) := by
  have h1 := (c10_frame_conditions (⟨[10], 0, 1, 3⟩ : Queue Int) 20).1 rfl
  have h2 := (c10_frame_conditions (⟨[10, 20], 0, 2, 3⟩ : Queue Int) 30).2.1 rfl
  have h3 := (c10_frame_conditions (⟨[10], 0, 1, 3⟩ : Queue Int) 20).2.2.1 rfl
  exact ⟨⟨rfl, h1.1, h1.2⟩, ⟨rfl, h2.1, h2.2⟩, ⟨rfl, h3.1, h3.2.1, h3.2.2.2.2⟩⟩

/-- C3: `enqueue` grows exactly when `has_space()` is false; `has_space`
is the sentinel test `head != (tail + 1) % capacity`; on reachable states
the growth point is exactly `len = capacity - 1`; and on a fresh queue of
capacity 3 the first two enqueues keep capacity 3 while the third doubles
it to 6. -/
theorem c3_growth_exactly_when_full :
    (∀ (T : Type) (q : Queue T) (x : T),
      (q.enqueue x).cap = if q.has_space then q.cap else q.cap * 2) ∧
    (∀ (T : Type) (q : Queue T), q.has_space = (q.head != (q.tail + 1) % q.cap)) ∧
    (∀ (T : Type) (q : Queue T), q.Inv → (q.has_space = false ↔ q.len = q.cap - 1)) ∧
    ((Queue.with_capacity Int 3).enqueue 1).cap = 3 ∧
    (((Queue.with_capacity Int 3).enqueue 1).enqueue 2).cap = 3 ∧
    ((((Queue.with_capacity Int 3).enqueue 1).enqueue 2).enqueue 3).cap = 6 := by
  refine ⟨?_, ?_, ?_, rfl, rfl, rfl⟩
  · intro T q x
    by_cases h : q.has_space <;> simp [Queue.enqueue, h]
  · intro T q
    rfl
  · intro T q hInv
    obtain ⟨hc, hh, ht, _, _, _⟩ := hInv
    have hmod : (q.tail + 1) % q.cap = if q.tail + 1 = q.cap then 0 else q.tail + 1 := by
      by_cases h : q.tail + 1 = q.cap
      · simp [h]
      · have hlt : q.tail + 1 < q.cap := by omega
        simp [h, Nat.mod_eq_of_lt hlt]
    constructor
    · intro h
      have heq : q.head = (q.tail + 1) % q.cap := by
        simpa [Queue.has_space, bne_eq_false_iff_eq] using h
      rw [hmod] at heq
      by_cases hb : q.tail + 1 = q.cap
      · rw [if_pos hb] at heq
        have hng : ¬ q.head > q.tail := by omega
        simp [Queue.len, hng]
        omega
      · rw [if_neg hb] at heq
        have hg : q.head > q.tail := by omega
        simp [Queue.len, hg]
        omega
    · intro hlen
      have heq : q.head = (q.tail + 1) % q.cap := by
        rw [hmod]
        unfold Queue.len at hlen
        by_cases hgt : q.head > q.tail
        · rw [if_pos hgt] at hlen
          split <;> omega
        · rw [if_neg hgt] at hlen
          split <;> omega
      simp [Queue.has_space, heq]

theorem c3_growth_exactly_when_full_witness :
    (⟨[10, 20], 0, 2, 3⟩ : Queue Int).Inv ∧
    ((⟨[10, 20], 0, 2, 3⟩ : Queue Int).has_space = false ↔
      (⟨[10, 20], 0, 2, 3⟩ : Queue Int).len = 3 - 1) :=
  ⟨by decide, c3_growth_exactly_when_full.2.2.1 Int _ (by decide)⟩

end DS

namespace DS

/-- Setting a slot and then taking one past it splits off the new value. -/
theorem take_set_succ {α : Type} (l : List α) (i : Nat) (x : α) (h : i < l.length) :
    (l.set i x).take (i + 1) = l.take i ++ [x] := by
  induction l generalizing i with
  | nil => simp at h
  | cons a l ih =>
    cases i with
    | zero => simp
    | succ m =>
      have hm : m < l.length := by simpa using h
      show a :: ((l.set m x).take (m + 1)) = a :: (l.take m ++ [x])
      rw [ih m hm]

/-- Dropping past a written slot erases the write. -/
theorem set_drop_lt {α : Type} (l : List α) (i n : Nat) (x : α) (h : i < n) :
    (l.set i x).drop n = l.drop n := by
  rw [List.drop_set, if_pos h]

/-- Dropping short of a written slot shifts the write. -/
theorem set_drop_le {α : Type} (l : List α) (i n : Nat) (x : α) (h : n ≤ i) :
    (l.set i x).drop n = (l.drop n).set (i - n) x := by
  rw [List.drop_set, if_neg (by omega)]

/-- Taking short of a written slot erases the write. -/
theorem set_take_ge {α : Type} (l : List α) (i n : Nat) (x : α) (h : n ≤ i) :
    (l.set i x).take n = l.take n := by
  apply List.ext_getElem
  · simp
  · intro j h1 h2
    simp only [List.getElem_take, List.getElem_set]
    rw [if_neg (by simp at h1; omega)]

/-- Setting the final slot of a list replaces its last element. -/
theorem set_last_eq_take_append {α : Type} (l : List α) (i : Nat) (x : α)
    (h : i + 1 = l.length) : l.set i x = l.take i ++ [x] := by
  have h1 := take_set_succ l i x (by omega)
  rwa [show i + 1 = (l.set i x).length by simp; omega, List.take_length] at h1

/-- Under the invariant, `len()` is the length of the abstract contents. -/
theorem Queue.absQ_length {T : Type} (q : Queue T) (h : q.Inv) :
    q.absQ.length = q.len := by
  obtain ⟨hc, hh, ht, htl, hlc, hw⟩ := h
  unfold Queue.absQ Queue.len
  by_cases hht : q.head ≤ q.tail
  · rw [if_pos hht, if_neg (by omega)]
    simp
    omega
  · have hgt : q.tail < q.head := by omega
    have hlen : q.list.length = q.cap := hw hgt
    rw [if_neg hht, if_pos (by omega)]
    simp [hlen]
    omega

/-- Under the invariant, `empty()` answers exactly "no abstract contents". -/
theorem Queue.empty_iff_absQ_nil {T : Type} (q : Queue T) (h : q.Inv) :
    q.empty = true ↔ q.absQ = [] := by
  have hlen := Queue.absQ_length q h
  obtain ⟨hc, hh, ht, htl, hlc, hw⟩ := h
  constructor
  · intro he
    have heq : q.head = q.tail := by simpa [Queue.empty] using he
    unfold Queue.absQ
    rw [if_pos (le_of_eq heq), heq]
    simp
  · intro ha
    have h0 : q.len = 0 := by rw [← hlen, ha]; rfl
    unfold Queue.len at h0
    simp only [Queue.empty, beq_iff_eq]
    by_cases hht : q.head > q.tail
    · rw [if_pos hht] at h0
      omega
    · rw [if_neg hht] at h0
      omega

/-- `resize` keeps the abstract FIFO contents unchanged. -/
theorem Queue.resize_absQ {T : Type} (q : Queue T) (h : q.Inv) :
    q.resize.absQ = q.absQ := by
  obtain ⟨hc, hh, ht, htl, hlc, hw⟩ := h
  obtain ⟨L, h0, t0, c⟩ := q
  simp only at hc hh ht htl hlc hw
  show Queue.absQ ⟨_, 0, _, c * 2⟩ = Queue.absQ ⟨L, h0, t0, c⟩
  unfold Queue.absQ
  rw [if_pos (Nat.zero_le _)]
  simp only [Nat.sub_zero, List.drop_zero, List.take_length]
  by_cases hht : h0 ≤ t0
  · rw [if_pos hht, if_pos hht]
  · rw [if_neg hht, if_neg hht]
    rw [List.take_take, Nat.min_eq_left (by omega)]

/-- The buffer `resize` builds holds at most `capacity - 1` elements. -/
theorem Queue.resize_length_le {T : Type} (q : Queue T) (h : q.Inv) :
    q.resize.list.length + 1 ≤ q.cap := by
  obtain ⟨hc, hh, ht, htl, hlc, hw⟩ := h
  obtain ⟨L, h0, t0, c⟩ := q
  simp only at hc hh ht htl hlc hw
  show (if h0 ≤ t0 then (L.drop h0).take (t0 - h0)
    else L.drop h0 ++ (L.take h0).take t0).length + 1 ≤ c
  by_cases hht : h0 ≤ t0
  · rw [if_pos hht]
    simp
    omega
  · rw [if_neg hht]
    have hlen : L.length = c := hw (by omega)
    simp [hlen]
    omega

/-- `resize` restores the invariant and always leaves free space. -/
theorem Queue.resize_Inv {T : Type} (q : Queue T) (h : q.Inv) :
    q.resize.Inv ∧ q.resize.has_space = true := by
  have hle := Queue.resize_length_le q h
  obtain ⟨hc, hh, ht, htl, hlc, hw⟩ := h
  constructor
  · refine ⟨by simp; omega, by simp; omega, ?_, ?_, ?_, ?_⟩
    · show q.resize.list.length < q.cap * 2
      omega
    · exact Nat.le_refl _
    · show q.resize.list.length ≤ q.cap * 2
      omega
    · intro hcon
      exact absurd hcon (by simp)
  · show (q.resize.head != (q.resize.tail + 1) % q.resize.cap) = true
    have h1 : q.resize.head = 0 := rfl
    have h2 : q.resize.tail = q.resize.list.length := rfl
    have h3 : (q.resize.list.length + 1) % (q.cap * 2) = q.resize.list.length + 1 :=
      Nat.mod_eq_of_lt (by omega)
    rw [h1, h2, Queue.resize_cap, h3]
    simp

end DS

namespace DS

theorem Queue.absQ_mk {T : Type} (L : List T) (h0 t0 c : Nat) :
    Queue.absQ ⟨L, h0, t0, c⟩ =
      if h0 ≤ t0 then (L.drop h0).take (t0 - h0) else L.drop h0 ++ L.take t0 := rfl

theorem Queue.Inv_mk {T : Type} (L : List T) (h0 t0 c : Nat) :
    Queue.Inv ⟨L, h0, t0, c⟩ ↔
      (2 ≤ c ∧ h0 < c ∧ t0 < c ∧ t0 ≤ L.length ∧ L.length ≤ c ∧
        (t0 < h0 → L.length = c)) := Iff.rfl

/-- Storing at `tail` and advancing `tail` appends the stored value to the
abstract contents, provided the sentinel slot is free. -/
theorem Queue.store_incr_absQ {T : Type} (q : Queue T) (x : T) (h : q.Inv)
    (hs : q.has_space = true) :
    ((q.store x).incr_tail).absQ = q.absQ ++ [x] := by
  obtain ⟨hc, hh, ht, htl, hlc, hw⟩ := h
  obtain ⟨L, h0, t0, c⟩ := q
  simp only at hc hh ht htl hlc hw
  have hhs : h0 ≠ (t0 + 1) % c := by simpa [Queue.has_space] using hs
  by_cases htc : t0 + 1 = c
  · -- tail wraps to 0
    have hmod : (t0 + 1) % c = 0 := by rw [htc, Nat.mod_self]
    have hh0 : 0 < h0 := by omega
    have hht : h0 ≤ t0 := by omega
    by_cases hlen : L.length > t0
    · have hq : (Queue.store ⟨L, h0, t0, c⟩ x).incr_tail
          = ⟨L.set t0 x, h0, (t0 + 1) % c, c⟩ := by
        simp [Queue.store, Queue.incr_tail, hlen]
      rw [hq, hmod, Queue.absQ_mk, Queue.absQ_mk, if_neg (by omega), if_pos hht]
      simp only [List.take_zero, List.append_nil]
      rw [set_drop_le L t0 h0 x hht]
      rw [set_last_eq_take_append]
      simp
      omega
    · have hL : L.length = t0 := by omega
      have hq : (Queue.store ⟨L, h0, t0, c⟩ x).incr_tail
          = ⟨L ++ [x], h0, (t0 + 1) % c, c⟩ := by
        simp [Queue.store, Queue.incr_tail, hlen]
      rw [hq, hmod, Queue.absQ_mk, Queue.absQ_mk, if_neg (by omega), if_pos hht]
      simp only [List.take_zero, List.append_nil]
      rw [List.drop_append_of_le_length (by omega)]
      rw [List.take_of_length_le (by simp; omega)]
  · -- tail advances to tail + 1
    have hmod : (t0 + 1) % c = t0 + 1 := Nat.mod_eq_of_lt (by omega)
    by_cases hht : h0 ≤ t0
    · -- non-wrapped state
      by_cases hlen : L.length > t0
      · have hq : (Queue.store ⟨L, h0, t0, c⟩ x).incr_tail
            = ⟨L.set t0 x, h0, (t0 + 1) % c, c⟩ := by
          simp [Queue.store, Queue.incr_tail, hlen]
        rw [hq, hmod, Queue.absQ_mk, Queue.absQ_mk, if_pos (by omega), if_pos hht]
        rw [set_drop_le L t0 h0 x hht]
        rw [show t0 + 1 - h0 = (t0 - h0) + 1 by omega]
        rw [take_set_succ]
        simp
        omega
      · have hL : L.length = t0 := by omega
        have hq : (Queue.store ⟨L, h0, t0, c⟩ x).incr_tail
            = ⟨L ++ [x], h0, (t0 + 1) % c, c⟩ := by
          simp [Queue.store, Queue.incr_tail, hlen]
        rw [hq, hmod, Queue.absQ_mk, Queue.absQ_mk, if_pos (by omega), if_pos hht]
        rw [List.drop_append_of_le_length (by omega)]
        rw [List.take_of_length_le (by simp; omega)]
        rw [List.take_of_length_le (by simp; omega)]
    · -- wrapped state: tail < head, buffer fully initialised
      have hgt : t0 < h0 := by omega
      have hL : L.length = c := hw hgt
      have hlen : L.length > t0 := by omega
      have hlt : t0 + 1 < h0 := by omega
      have hq : (Queue.store ⟨L, h0, t0, c⟩ x).incr_tail
          = ⟨L.set t0 x, h0, (t0 + 1) % c, c⟩ := by
        simp [Queue.store, Queue.incr_tail, hlen]
      rw [hq, hmod, Queue.absQ_mk, Queue.absQ_mk, if_neg (by omega), if_neg (by omega)]
      rw [set_drop_lt L t0 h0 x hgt]
      rw [take_set_succ L t0 x (by omega)]
      rw [List.append_assoc]

/-- Storing at `tail` and advancing `tail` preserves the invariant,
provided the sentinel slot is free. -/
theorem Queue.store_incr_Inv {T : Type} (q : Queue T) (x : T) (h : q.Inv)
    (hs : q.has_space = true) :
    ((q.store x).incr_tail).Inv := by
  obtain ⟨hc, hh, ht, htl, hlc, hw⟩ := h
  obtain ⟨L, h0, t0, c⟩ := q
  simp only at hc hh ht htl hlc hw
  have hhs : h0 ≠ (t0 + 1) % c := by simpa [Queue.has_space] using hs
  have hmod : (t0 + 1) % c = if t0 + 1 = c then 0 else t0 + 1 := by
    by_cases htc : t0 + 1 = c
    · simp [htc]
    · rw [if_neg htc]
      exact Nat.mod_eq_of_lt (by omega)
  by_cases hlen : L.length > t0
  · have hq : (Queue.store ⟨L, h0, t0, c⟩ x).incr_tail
        = ⟨L.set t0 x, h0, (t0 + 1) % c, c⟩ := by
      simp [Queue.store, Queue.incr_tail, hlen]
    rw [hq, Queue.Inv_mk]
    rw [hmod]
    simp only [List.length_set]
    by_cases htc : t0 + 1 = c
    · rw [if_pos htc]
      refine ⟨hc, hh, by omega, by omega, hlc, ?_⟩
      intro h01
      omega
    · rw [if_neg htc]
      refine ⟨hc, hh, by omega, by omega, hlc, ?_⟩
      intro h01
      exact hw (by omega)
  · have hL : L.length = t0 := by omega
    have hq : (Queue.store ⟨L, h0, t0, c⟩ x).incr_tail
        = ⟨L ++ [x], h0, (t0 + 1) % c, c⟩ := by
      simp [Queue.store, Queue.incr_tail, hlen]
    rw [hq, Queue.Inv_mk]
    rw [hmod]
    simp only [List.length_append, List.length_cons, List.length_nil]
    by_cases htc : t0 + 1 = c
    · rw [if_pos htc]
      exact ⟨hc, hh, by omega, by omega, by omega, by omega⟩
    · rw [if_neg htc]
      refine ⟨hc, hh, by omega, by omega, by omega, ?_⟩
      intro h01
      omega

/-- `enqueue` appends the new value to the abstract contents. -/
theorem Queue.enqueue_absQ {T : Type} (q : Queue T) (x : T) (h : q.Inv) :
    (q.enqueue x).absQ = q.absQ ++ [x] := by
  unfold Queue.enqueue
  by_cases hs : q.has_space = true
  · rw [if_pos hs]
    exact Queue.store_incr_absQ q x h hs
  · rw [if_neg hs]
    have hr := Queue.resize_Inv q h
    rw [Queue.store_incr_absQ q.resize x hr.1 hr.2]
    rw [Queue.resize_absQ q h]

/-- `enqueue` preserves the invariant. -/
theorem Queue.enqueue_Inv {T : Type} (q : Queue T) (x : T) (h : q.Inv) :
    (q.enqueue x).Inv := by
  unfold Queue.enqueue
  by_cases hs : q.has_space = true
  · rw [if_pos hs]
    exact Queue.store_incr_Inv q x h hs
  · rw [if_neg hs]
    have hr := Queue.resize_Inv q h
    exact Queue.store_incr_Inv q.resize x hr.1 hr.2

end DS

namespace DS

/-- On an empty queue `dequeue` returns `None` and changes nothing. -/
theorem Queue.dequeue_none {T : Type} [Inhabited T] (q : Queue T)
    (h : q.head = q.tail) : q.dequeue = (none, q) := by
  simp [Queue.dequeue, Queue.empty, h]

/-- On a non-empty reachable queue, `dequeue` returns the oldest abstract
element, the new abstract contents are the old ones without it, and the
invariant is preserved. -/
theorem Queue.dequeue_spec {T : Type} [Inhabited T] (q : Queue T) (h : q.Inv)
    (hne : q.head ≠ q.tail) :
    q.dequeue.1 = q.absQ.head? ∧ q.dequeue.2.absQ = q.absQ.tail ∧
      q.dequeue.2.Inv ∧ q.absQ ≠ [] := by
  obtain ⟨hc, hh, ht, htl, hlc, hw⟩ := h
  obtain ⟨L, h0, t0, c⟩ := q
  simp only at hc hh ht htl hlc hw hne
  have hL : h0 < L.length := by
    by_cases hlt : h0 < t0
    · omega
    · have hgt : t0 < h0 := by omega
      rw [hw hgt]
      exact hh
  have hemp : Queue.empty ⟨L, h0, t0, c⟩ = false := by
    simp [Queue.empty]
    omega
  have hdq : Queue.dequeue ⟨L, h0, t0, c⟩
      = (some (L.getD h0 default), ⟨L.set h0 default, (h0 + 1) % c, t0, c⟩) := by
    simp [Queue.dequeue, hemp, Queue.incr_head]
  have hv : L.getD h0 default = L[h0] := List.getD_eq_getElem L default hL
  have hdrop : L.drop h0 = L[h0] :: L.drop (h0 + 1) := List.drop_eq_getElem_cons hL
  by_cases hlt : h0 < t0
  · -- non-wrapped
    have habs : Queue.absQ ⟨L, h0, t0, c⟩
        = L[h0] :: (L.drop (h0 + 1)).take (t0 - (h0 + 1)) := by
      rw [Queue.absQ_mk, if_pos (by omega), hdrop]
      rw [show t0 - h0 = (t0 - (h0 + 1)) + 1 by omega]
      exact List.take_succ_cons
    have hmod : (h0 + 1) % c = h0 + 1 := Nat.mod_eq_of_lt (by omega)
    refine ⟨?_, ?_, ?_, ?_⟩
    · rw [hdq, habs, hv]
      rfl
    · rw [hdq, habs]
      show Queue.absQ ⟨L.set h0 default, (h0 + 1) % c, t0, c⟩ = _
      rw [Queue.absQ_mk, hmod, if_pos (by omega)]
      rw [set_drop_lt L h0 (h0 + 1) default (by omega)]
      rfl
    · rw [hdq]
      show Queue.Inv ⟨L.set h0 default, (h0 + 1) % c, t0, c⟩
      rw [Queue.Inv_mk, hmod]
      simp only [List.length_set]
      exact ⟨hc, by omega, ht, htl, hlc, by omega⟩
    · rw [habs]
      simp
  · -- wrapped: tail < head
    have hgt : t0 < h0 := by omega
    have hLc : L.length = c := hw hgt
    have habs : Queue.absQ ⟨L, h0, t0, c⟩
        = L[h0] :: (L.drop (h0 + 1) ++ L.take t0) := by
      rw [Queue.absQ_mk, if_neg (by omega), hdrop]
      rfl
    refine ⟨?_, ?_, ?_, ?_⟩
    · rw [hdq, habs, hv]
      rfl
    · rw [hdq, habs]
      show Queue.absQ ⟨L.set h0 default, (h0 + 1) % c, t0, c⟩ = _
      by_cases hwrap : h0 + 1 = c
      · have hmod : (h0 + 1) % c = 0 := by rw [hwrap, Nat.mod_self]
        rw [Queue.absQ_mk, hmod, if_pos (by omega)]
        simp only [List.drop_zero, Nat.sub_zero]
        rw [set_take_ge L h0 t0 default (by omega)]
        have hnil : L.drop (h0 + 1) = [] := List.drop_eq_nil_of_le (by omega)
        rw [hnil]
        rfl
      · have hmod : (h0 + 1) % c = h0 + 1 := Nat.mod_eq_of_lt (by omega)
        rw [Queue.absQ_mk, hmod, if_neg (by omega)]
        rw [set_drop_lt L h0 (h0 + 1) default (by omega)]
        rw [set_take_ge L h0 t0 default (by omega)]
        rfl
    · rw [hdq]
      show Queue.Inv ⟨L.set h0 default, (h0 + 1) % c, t0, c⟩
      rw [Queue.Inv_mk]
      simp only [List.length_set]
      refine ⟨hc, Nat.mod_lt _ (by omega), ht, htl, hlc, ?_⟩
      intro hcon
      exact hLc
    · rw [habs]
      simp

/-- Running any operation sequence from a reachable state: the invariant
is maintained, and the dequeued outputs followed by the remaining abstract
contents are exactly the starting contents followed by the enqueued
values, in order. -/
theorem Queue.run_spec {T : Type} [Inhabited T] (ops : List (Op T)) (q : Queue T)
    (h : q.Inv) :
    (q.run ops).1.Inv ∧
      (q.run ops).2 ++ (q.run ops).1.absQ = q.absQ ++ enqueued ops := by
  induction ops generalizing q with
  | nil =>
    refine ⟨?_, ?_⟩
    · simp only [Queue.run]
      exact h
    · simp [Queue.run, enqueued]
  | cons op ops ih =>
    cases op with
    | enq x =>
      have h1 := Queue.enqueue_Inv q x h
      have h2 := Queue.enqueue_absQ q x h
      have h3 := ih (q.enqueue x) h1
      refine ⟨?_, ?_⟩
      · simp only [Queue.run]
        exact h3.1
      · simp only [Queue.run]
        rw [h3.2, h2, List.append_assoc]
        rfl
    | deq =>
      by_cases he : q.head = q.tail
      · have hd := Queue.dequeue_none q he
        have habs : q.absQ = [] :=
          (Queue.empty_iff_absQ_nil q h).1 (by simp [Queue.empty, he])
        have h3 := ih q h
        have hrun : q.run (Op.deq :: ops) = q.run ops := by
          simp only [Queue.run]
          rw [hd]
        rw [hrun]
        refine ⟨h3.1, ?_⟩
        rw [h3.2]
        rfl
      · obtain ⟨hd1, hd2, hd3, hd4⟩ := Queue.dequeue_spec q h he
        obtain ⟨v, rest, habs⟩ : ∃ v rest, q.absQ = v :: rest := by
          cases hq : q.absQ with
          | nil => exact absurd hq hd4
          | cons a b => exact ⟨a, b, rfl⟩
        have hv : q.dequeue.1 = some v := by
          rw [hd1, habs]
          rfl
        have hpair : q.dequeue = (some v, q.dequeue.2) := by
          rw [← hv]
        have hrun : q.run (Op.deq :: ops) =
            ((Queue.run q.dequeue.2 ops).1, v :: (Queue.run q.dequeue.2 ops).2) := by
          simp only [Queue.run]
          rw [hpair]
        have h3 := ih q.dequeue.2 hd3
        rw [hrun]
        refine ⟨h3.1, ?_⟩
        show (v :: (Queue.run q.dequeue.2 ops).2) ++ (Queue.run q.dequeue.2 ops).1.absQ = _
        rw [List.cons_append, h3.2, hd2, habs]
        rfl

end DS

namespace DS

/-- A freshly constructed queue with sane capacity satisfies the invariant. -/
theorem Queue.with_capacity_Inv {T : Type} (c : Nat) (h : 2 ≤ c) :
    (Queue.with_capacity T c).Inv := by
  show Queue.Inv ⟨[], 0, 0, c⟩
  rw [Queue.Inv_mk]
  refine ⟨h, by omega, by omega, by simp, by simp, ?_⟩
  intro hcon
  omega

/-- A freshly constructed queue has no abstract contents. -/
theorem Queue.with_capacity_absQ {T : Type} (c : Nat) :
    (Queue.with_capacity T c).absQ = [] := rfl

/-- C1: for every sequence of enqueue and dequeue operations on a queue
built by `with_capacity` (any sane capacity, any number of internal
resizes and wrap-arounds), the successful dequeue outputs followed by the
still-stored values are exactly the enqueued values in enqueue order — so
successful dequeues return exactly the enqueued values, in FIFO order. -/
theorem c1_fifo_preserved {T : Type} [Inhabited T] (c : Nat) (ops : List (Op T))
    (h : 2 ≤ c) :
    ((Queue.with_capacity T c).run ops).2 ++ ((Queue.with_capacity T c).run ops).1.absQ
      = enqueued ops := by
  have hInv := @Queue.with_capacity_Inv T c h
  have hr := Queue.run_spec ops (Queue.with_capacity T c) hInv
  rw [hr.2, Queue.with_capacity_absQ]
  rfl

theorem c1_fifo_preserved_witness :
    2 ≤ 3 ∧
    ((Queue.with_capacity Int 3).run
        [Op.enq 1, Op.enq 2, Op.enq 3, Op.deq, Op.deq, Op.enq 4, Op.enq 5,
          Op.enq 6, Op.deq, Op.deq, Op.deq, Op.deq]).2 ++
      ((Queue.with_capacity Int 3).run
        [Op.enq 1, Op.enq 2, Op.enq 3, Op.deq, Op.deq, Op.enq 4, Op.enq 5,
          Op.enq 6, Op.deq, Op.deq, Op.deq, Op.deq]).1.absQ
      = enqueued [Op.enq 1, Op.enq 2, Op.enq 3, Op.deq, Op.deq, Op.enq 4,
          Op.enq 5, Op.enq 6, Op.deq, Op.deq, Op.deq, Op.deq] :=
  ⟨by decide, @c1_fifo_preserved Int _ 3 _ (by decide)⟩

/-- C2: after any operation sequence from construction, `len()` equals the
number of enqueues minus the number of successful dequeues, `len()` obeys
the wrap-aware formula in both index orders, `head` and `tail` stay below
the capacity, and `empty()` holds exactly when that count is zero. -/
theorem c2_len_invariant {T : Type} [Inhabited T] (c : Nat) (ops : List (Op T))
    (h : 2 ≤ c) :
    ((Queue.with_capacity T c).run ops).1.len
        + ((Queue.with_capacity T c).run ops).2.length
      = (enqueued ops).length ∧
    ((Queue.with_capacity T c).run ops).1.len
      = (enqueued ops).length - ((Queue.with_capacity T c).run ops).2.length ∧
    ((Queue.with_capacity T c).run ops).1.head
      < ((Queue.with_capacity T c).run ops).1.cap ∧
    ((Queue.with_capacity T c).run ops).1.tail
      < ((Queue.with_capacity T c).run ops).1.cap ∧
    (((Queue.with_capacity T c).run ops).1.empty = true ↔
      (enqueued ops).length - ((Queue.with_capacity T c).run ops).2.length = 0) ∧
    (((Queue.with_capacity T c).run ops).1.head
        ≤ ((Queue.with_capacity T c).run ops).1.tail →
      ((Queue.with_capacity T c).run ops).1.len
        = ((Queue.with_capacity T c).run ops).1.tail
          - ((Queue.with_capacity T c).run ops).1.head) ∧
    (((Queue.with_capacity T c).run ops).1.tail
        < ((Queue.with_capacity T c).run ops).1.head →
      ((Queue.with_capacity T c).run ops).1.len
        = ((Queue.with_capacity T c).run ops).1.cap
          - ((Queue.with_capacity T c).run ops).1.head
          + ((Queue.with_capacity T c).run ops).1.tail) := by
  have hInv := @Queue.with_capacity_Inv T c h
  have hr := Queue.run_spec ops (Queue.with_capacity T c) hInv
  have hlen := Queue.absQ_length _ hr.1
  have hsum : ((Queue.with_capacity T c).run ops).2.length
      + ((Queue.with_capacity T c).run ops).1.absQ.length
      = (enqueued ops).length := by
    have hl := congrArg List.length hr.2
    rw [Queue.with_capacity_absQ] at hl
    simpa using hl
  obtain ⟨hc2, hh2, ht2, _, _, _⟩ := hr.1
  refine ⟨by omega, by omega, hh2, ht2, ?_, ?_, ?_⟩
  · rw [Queue.empty_iff_absQ_nil _ hr.1]
    rw [← List.length_eq_zero]
    omega
  · intro hge
    unfold Queue.len
    rw [if_neg (by omega)]
  · intro hlt
    unfold Queue.len
    rw [if_pos (by omega)]

theorem c2_len_invariant_witness :
    2 ≤ 3 ∧
    ((Queue.with_capacity Int 3).run
          ([Op.enq 5, Op.enq 7, Op.deq] : List (Op Int))).1.len
        + ((Queue.with_capacity Int 3).run
          ([Op.enq 5, Op.enq 7, Op.deq] : List (Op Int))).2.length
      = (enqueued ([Op.enq 5, Op.enq 7, Op.deq] : List (Op Int))).length :=
  ⟨by decide, (@c2_len_invariant Int _ 3 _ (by decide)).1⟩

/-- C4: `resize` doubles the capacity, relinearises the logical contents
at the front of the new buffer (single slice `[head, tail)` when
`head <= tail`, the two slices `[head, cap)` then `[0, tail)` when
wrapped), resets `head = 0` and sets `tail` to the number of elements
copied — leaving the dequeue-observable sequence unchanged. -/
theorem c4_resize_relinearises {T : Type} (q : Queue T) (h : q.Inv) :
    q.resize.cap = q.cap * 2 ∧ q.resize.head = 0 ∧
    q.resize.tail = q.resize.list.length ∧
    q.resize.tail = q.absQ.length ∧
    (q.head ≤ q.tail → q.resize.list = (q.list.drop q.head).take (q.tail - q.head)) ∧
    (q.tail < q.head → q.resize.list = q.list.drop q.head ++ q.list.take q.tail) ∧
    q.resize.absQ = q.absQ := by
  have hlist : ∀ p : Queue T, p.head = 0 → p.tail = p.list.length → p.absQ = p.list := by
    intro p hp ht
    unfold Queue.absQ
    rw [hp, ht, if_pos (Nat.zero_le _)]
    simp
  refine ⟨rfl, rfl, rfl, ?_, ?_, ?_, Queue.resize_absQ q h⟩
  · have h1 : q.resize.absQ.length = q.absQ.length := by
      rw [Queue.resize_absQ q h]
    rw [← h1, hlist q.resize rfl rfl]
    rfl
  · intro hht
    show (if q.head ≤ q.tail then (q.list.drop q.head).take (q.tail - q.head)
      else q.list.drop q.head ++ (q.list.take q.head).take q.tail) = _
    rw [if_pos hht]
  · intro hgt
    show (if q.head ≤ q.tail then (q.list.drop q.head).take (q.tail - q.head)
      else q.list.drop q.head ++ (q.list.take q.head).take q.tail) = _
    rw [if_neg (by omega)]
    rw [List.take_take, Nat.min_eq_left (by omega)]

theorem c4_resize_relinearises_witness :
    (⟨[7, 8, 9], 2, 1, 3⟩ : Queue Int).Inv ∧
    (⟨[7, 8, 9], 2, 1, 3⟩ : Queue Int).resize.cap = 6 ∧
    (⟨[7, 8, 9], 2, 1, 3⟩ : Queue Int).resize.head = 0 ∧
    (⟨[7, 8, 9], 2, 1, 3⟩ : Queue Int).resize.list = [9, 7] ∧
    (⟨[7, 8, 9], 2, 1, 3⟩ : Queue Int).resize.absQ
      = (⟨[7, 8, 9], 2, 1, 3⟩ : Queue Int).absQ := by
  have hx := c4_resize_relinearises (⟨[7, 8, 9], 2, 1, 3⟩ : Queue Int) (by decide)
  exact ⟨by decide, hx.1, hx.2.1, hx.2.2.2.2.2.1 (by decide), hx.2.2.2.2.2.2⟩

end DS

namespace DS

/-- The Rust `>=` of `i32`-like ordered values (`PartialOrd` on `Int`). -/
def ge_int (a b : Int) : Bool := decide (b ≤ a)

/-- The Rust `>=` of a value type carrying an identity tag that does not
take part in the comparison (a `PartialOrd` implementation on the first
component only) — used to observe stability among equal-valued inserts. -/
def ge_fst (a b : Int × Nat) : Bool := decide (b.1 ≤ a.1)

/-- `insert_inorder` descends past every node the new value is `>=` to and
splices it right before the first node it is not `>=` to. -/
theorem insert_inorder_toList {T : Type} (ge : T → T → Bool) (l : LinkedList T) (d : T) :
    (insert_inorder ge l d).toList
      = l.toList.takeWhile (fun it => ge d it) ++ d :: l.toList.dropWhile (fun it => ge d it) := by
  induction l with
  | nil =>
    simp [insert_inorder, LinkedList.append, LinkedList.toList]
  | cons it child ih =>
    by_cases hge : ge d it = true
    · simp [insert_inorder, hge, LinkedList.toList, ih, List.takeWhile_cons,
        List.dropWhile_cons]
    · simp [insert_inorder, hge, LinkedList.insert_here, LinkedList.toList,
        List.takeWhile_cons, List.dropWhile_cons]

/-- Every element of the dropped suffix fails to be `<=` the inserted
value, provided the list was sorted. -/
theorem dropWhile_all_not {T : Type} (ge : T → T → Bool)
    (htot : ∀ a b, ge a b = true ∨ ge b a = true)
    (htrans : ∀ a b c, ge a b = true → ge b c = true → ge a c = true)
    (L : List T) (d : T)
    (hs : L.Pairwise (fun a b => ge b a = true)) :
    ∀ b ∈ L.dropWhile (fun it => ge d it), ge b d = true ∧ ge d b = false := by
  have hsB : (L.dropWhile (fun it => ge d it)).Pairwise (fun a b => ge b a = true) :=
    hs.sublist (List.dropWhile_sublist _)
  have hhd := List.head?_dropWhile_not (fun it => ge d it) L
  intro b hb
  cases hBeq : L.dropWhile (fun it => ge d it) with
  | nil =>
    rw [hBeq] at hb
    simp at hb
  | cons b0 B1 =>
    rw [hBeq] at hhd hsB hb
    simp only [List.head?_cons] at hhd
    have hb0d : ge b0 d = true := by
      rcases htot b0 d with h1 | h1
      · exact h1
      · exact absurd h1 (by simp [hhd])
    rw [List.pairwise_cons] at hsB
    rcases List.mem_cons.1 hb with hb | hb
    · subst hb
      refine ⟨hb0d, hhd⟩
    · have hbb0 : ge b b0 = true := hsB.1 b hb
      have hbd : ge b d = true := htrans b b0 d hbb0 hb0d
      refine ⟨hbd, ?_⟩
      by_cases hdb : ge d b = true
      · have hdb0 : ge d b0 = true := htrans d b b0 hdb hbb0
        rw [hhd] at hdb0
        exact absurd hdb0 (by simp)
      · simpa using hdb

/-- Inserting into a sorted list with a total, transitive `>=` keeps it
sorted. -/
theorem insert_inorder_sorted {T : Type} (ge : T → T → Bool)
    (htot : ∀ a b, ge a b = true ∨ ge b a = true)
    (htrans : ∀ a b c, ge a b = true → ge b c = true → ge a c = true)
    (l : LinkedList T) (d : T)
    (hs : l.toList.Pairwise (fun a b => ge b a = true)) :
    (insert_inorder ge l d).toList.Pairwise (fun a b => ge b a = true) := by
  rw [insert_inorder_toList]
  have hBd := dropWhile_all_not ge htot htrans l.toList d hs
  have hsplit := (List.takeWhile_append_dropWhile (fun it => ge d it) l.toList).symm
  rw [hsplit, List.pairwise_append] at hs
  obtain ⟨hA, hB, hAB⟩ := hs
  rw [List.pairwise_append]
  refine ⟨hA, ?_, ?_⟩
  · rw [List.pairwise_cons]
    refine ⟨?_, hB⟩
    intro b hb
    exact (hBd b hb).1
  · intro a ha b hb
    rcases List.mem_cons.1 hb with hb | hb
    · subst hb
      exact List.mem_takeWhile_imp ha
    · exact hAB a ha b hb

end DS

namespace DS

theorem ge_int_total : ∀ a b : Int, ge_int a b = true ∨ ge_int b a = true := by
  intro a b
  simp [ge_int]
  exact le_total b a

theorem ge_int_trans : ∀ a b c : Int, ge_int a b = true → ge_int b c = true →
    ge_int a c = true := by
  intro a b c h1 h2
  simp [ge_int] at h1 h2
  simp [ge_int]
  omega

theorem ge_fst_total : ∀ a b : Int × Nat, ge_fst a b = true ∨ ge_fst b a = true := by
  intro a b
  simp [ge_fst]
  exact le_total b.1 a.1

theorem ge_fst_trans : ∀ a b c : Int × Nat, ge_fst a b = true → ge_fst b c = true →
    ge_fst a c = true := by
  intro a b c h1 h2
  simp [ge_fst] at h1 h2
  simp [ge_fst]
  omega

/-- Stability: inserting a value into a sorted tagged list appends it
after all existing elements with the same first component and inserts no
earlier than any of them, so per-value filtering commutes with insertion. -/
theorem insert_inorder_filter_stable (l : LinkedList (Int × Nat)) (d : Int × Nat)
    (v : Int) (hs : l.toList.Pairwise (fun a b => ge_fst b a = true)) :
    (insert_inorder ge_fst l d).toList.filter (fun p => p.1 == v)
      = l.toList.filter (fun p => p.1 == v) ++ (if d.1 == v then [d] else []) := by
  have hBd := dropWhile_all_not ge_fst ge_fst_total ge_fst_trans l.toList d hs
  rw [insert_inorder_toList]
  rw [List.filter_append, List.filter_cons]
  have hsplitl : l.toList.filter (fun p => p.1 == v)
      = (l.toList.takeWhile (fun it => ge_fst d it)).filter (fun p => p.1 == v)
        ++ (l.toList.dropWhile (fun it => ge_fst d it)).filter (fun p => p.1 == v) := by
    rw [← List.filter_append, List.takeWhile_append_dropWhile]
  by_cases hdv : (d.1 == v) = true
  · have hBnil : (l.toList.dropWhile (fun it => ge_fst d it)).filter
        (fun p => p.1 == v) = [] := by
      rw [List.filter_eq_nil_iff]
      intro b hb
      have h2 := (hBd b hb).2
      simp [ge_fst] at h2
      simp at hdv
      simp
      omega
    rw [hsplitl, hBnil]
    simp [hdv]
  · rw [hsplitl]
    simp [hdv]

/-- Folding inserts over a sorted start keeps the list sorted. -/
theorem foldl_insert_sorted {T : Type} (ge : T → T → Bool)
    (htot : ∀ a b, ge a b = true ∨ ge b a = true)
    (htrans : ∀ a b c, ge a b = true → ge b c = true → ge a c = true)
    (xs : List T) :
    ∀ l : LinkedList T, l.toList.Pairwise (fun a b => ge b a = true) →
      (List.foldl (insert_inorder ge) l xs).toList.Pairwise
        (fun a b => ge b a = true) := by
  induction xs with
  | nil =>
    intro l hl
    simpa using hl
  | cons x xs ih =>
    intro l hl
    rw [List.foldl_cons]
    exact ih _ (insert_inorder_sorted ge htot htrans l x hl)

/-- Folding inserts permutes the start contents plus the inserted values. -/
theorem foldl_insert_perm {T : Type} (ge : T → T → Bool) (xs : List T) :
    ∀ l : LinkedList T,
      (List.foldl (insert_inorder ge) l xs).toList.Perm (l.toList ++ xs) := by
  induction xs with
  | nil =>
    intro l
    simp
  | cons x xs ih =>
    intro l
    rw [List.foldl_cons]
    have h1 := ih (insert_inorder ge l x)
    have h2 : (insert_inorder ge l x).toList.Perm (x :: l.toList) := by
      rw [insert_inorder_toList]
      have h3 : ((l.toList.takeWhile (fun it => ge x it))
          ++ x :: (l.toList.dropWhile (fun it => ge x it))).Perm
          (x :: ((l.toList.takeWhile (fun it => ge x it))
            ++ (l.toList.dropWhile (fun it => ge x it)))) := List.perm_middle
      rwa [List.takeWhile_append_dropWhile] at h3
    exact (h1.trans (h2.append_right xs)).trans List.perm_middle.symm

/-- Folding inserts over a sorted tagged start preserves per-value order. -/
theorem foldl_insert_filter (xs : List (Int × Nat)) (v : Int) :
    ∀ l : LinkedList (Int × Nat), l.toList.Pairwise (fun a b => ge_fst b a = true) →
      (List.foldl (insert_inorder ge_fst) l xs).toList.filter (fun p => p.1 == v)
        = l.toList.filter (fun p => p.1 == v) ++ xs.filter (fun p => p.1 == v) := by
  induction xs with
  | nil =>
    intro l hl
    simp
  | cons x xs ih =>
    intro l hl
    rw [List.foldl_cons]
    rw [ih _ (insert_inorder_sorted ge_fst ge_fst_total ge_fst_trans l x hl)]
    rw [insert_inorder_filter_stable l x v hl]
    rw [List.filter_cons]
    by_cases hxv : (x.1 == v) = true
    · simp [hxv, List.append_assoc]
    · simp [hxv]

theorem pq_new_eq (T : Type) : PriorityQueue.new T = ⟨.nil⟩ := rfl

/-- A fold of `PriorityQueue::insert` is a fold of `insert_inorder` on the
wrapped list. -/
theorem pq_foldl_list {T : Type} (ge : T → T → Bool) (xs : List T) :
    ∀ l0 : LinkedList T,
      (List.foldl (fun q x => PriorityQueue.insert ge q x)
          (PriorityQueue.mk l0) xs).list
        = List.foldl (insert_inorder ge) l0 xs := by
  induction xs with
  | nil =>
    intro l0
    rfl
  | cons x xs ih =>
    intro l0
    rw [List.foldl_cons, List.foldl_cons]
    exact ih (insert_inorder ge l0 x)

/-- C8: after any sequence of `PriorityQueue::insert` calls the wrapped
list is sorted in non-decreasing order and holds exactly the inserted
values, so pops return them in non-decreasing order; equal-valued
elements (observed via an identity tag invisible to the comparison) keep
their insertion order; and the spec's concrete scenario (insert 1,3,2;
pop 1,2,3 then absence) holds. -/
theorem c8_priority_queue_ascending_stable :
    (∀ xs : List Int,
      ((List.foldl (fun q x => PriorityQueue.insert ge_int q x)
            (PriorityQueue.new Int) xs).list.toList).Pairwise
          (fun a b : Int => a ≤ b) ∧
      ((List.foldl (fun q x => PriorityQueue.insert ge_int q x)
            (PriorityQueue.new Int) xs).list.toList).Perm xs) ∧
    (∀ (xs : List (Int × Nat)) (v : Int),
      ((List.foldl (fun q x => PriorityQueue.insert ge_fst q x)
            (PriorityQueue.new (Int × Nat)) xs).list.toList).filter (fun p => p.1 == v)
        = xs.filter (fun p => p.1 == v)) ∧
    ((((PriorityQueue.new Int).insert ge_int 1).insert ge_int 3).insert
        ge_int 2).pop.1 = some 1 ∧
    (((((PriorityQueue.new Int).insert ge_int 1).insert ge_int 3).insert
        ge_int 2).pop.2).pop.1 = some 2 ∧
    ((((((PriorityQueue.new Int).insert ge_int 1).insert ge_int 3).insert
        ge_int 2).pop.2).pop.2).pop.1 = some 3 ∧
    (((((((PriorityQueue.new Int).insert ge_int 1).insert ge_int 3).insert
        ge_int 2).pop.2).pop.2).pop.2).pop.1 = none := by
  refine ⟨?_, ?_, by decide, by decide, by decide, by decide⟩
  · intro xs
    rw [pq_new_eq, pq_foldl_list ge_int xs LinkedList.nil]
    constructor
    · have hs := foldl_insert_sorted ge_int ge_int_total ge_int_trans xs
        LinkedList.nil (by simp [LinkedList.toList])
      refine hs.imp ?_
      intro a b hab
      simpa [ge_int] using hab
    · have hp := foldl_insert_perm ge_int xs LinkedList.nil
      simpa using hp
  · intro xs v
    rw [pq_new_eq, pq_foldl_list ge_fst xs LinkedList.nil]
    have hf := foldl_insert_filter xs v LinkedList.nil (by simp [LinkedList.toList])
    rw [hf]
    rfl

end DS
